import Mathlib

/-!
Verification of the yunikorn-core scheduling engine (shallow embedding).

The Go sources of the scheduler core are embedded as executable Lean
definitions: the application state machine (`NewAppState`), the scheduling
node bookkeeping (`preAllocateCheck`, `allocateResource`, `reserve`,
`isReservedForApp`), the partition confirm path (`confirmAllocation`), the
state-aware application filter (`StateAwareFilter`), the sortable linked map
(`SortableLinkedMap`), the configuration loader checksum computation
(`LoadSchedulerConfigFromByteArray`) and the partition-name helpers
(`GetNormalizedPartitionName` and friends).

Multi-dimensional resources (package `pkg/common/resources`, not part of the
sources at hand) are modelled from the specification as association lists
from resource-type name to integer quantity.
-/

/-- Generic first-match search over a list, mirroring the scan loops used
throughout the Go sources (`findNextMatchedEntry`, map iteration). -/
def findFirst (p : α → Bool) : List α → Option α
  | [] => none
  | x :: xs => if p x then some x else findFirst p xs

theorem findFirst_append (p : α → Bool) (l₁ l₂ : List α) :
    findFirst p (l₁ ++ l₂) = (findFirst p l₁).or (findFirst p l₂) := by
  induction l₁ with
  | nil => simp [findFirst]
  | cons x xs ih =>
      by_cases h : p x <;> simp [findFirst, h, ih]

theorem findFirst_eq_none {p : α → Bool} {l : List α} :
    findFirst p l = none ↔ ∀ x ∈ l, p x = false := by
  induction l with
  | nil => simp [findFirst]
  | cons x xs ih =>
      by_cases h : p x <;> simp [findFirst, h, ih]

theorem findFirst_eq_some {p : α → Bool} {l : List α} {x : α}
    (h : findFirst p l = some x) : x ∈ l ∧ p x = true := by
  induction l with
  | nil => simp [findFirst] at h
  | cons y ys ih =>
      by_cases hy : p y
      · simp [findFirst, hy] at h
        subst h
        exact ⟨List.mem_cons_self y ys, hy⟩
      · simp [findFirst, hy] at h
        rcases ih h with ⟨hmem, hp⟩
        exact ⟨List.mem_cons_of_mem y hmem, hp⟩

/-! ## Resource algebra

Modelled from the spec: package `pkg/common/resources` is not among the
sources; the spec describes a `Resource` as a mapping from resource-type
name to integer quantity with component-wise operations.  Missing types are
treated as 0; `FitIn(a,b)` holds when for every type present in `b` the
value in `a` (0 when absent) is at least the value in `b`;
`StrictlyGreaterThanZero` holds when at least one type is positive and none
is negative; `SubErrorNegative` clamps any component that would go negative
at zero and reports the drift as an error. -/

abbrev Resource := List (String × Int)

/-- Value of a resource type, 0 when the type is absent (Go map read). -/
def resGet (r : Resource) (k : String) : Int :=
  match findFirst (fun p => p.1 == k) r with
  | some p => p.2
  | none => 0

/-- Key set of the union of two resources, deduplicated (Go map iteration
over both operands). -/
def resKeys (a b : Resource) : List String :=
  ((a.map Prod.fst) ++ (b.map Prod.fst)).dedup

/-- Modelled from the spec: `resources.Add`, component-wise sum over the
union of the present types. -/
def addRes (a b : Resource) : Resource :=
  (resKeys a b).map (fun k => (k, resGet a k + resGet b k))

/-- Modelled from the spec: `resources.SubErrorNegative`; components that
would go negative are clamped at zero and the drift is flagged. -/
def subErrorNegative (a b : Resource) : Resource × Bool :=
  ((resKeys a b).map (fun k => (k, max 0 (resGet a k - resGet b k))),
   (resKeys a b).any (fun k => resGet a k - resGet b k < 0))

/-- Modelled from the spec: `resources.FitIn(larger, smaller)` — every type
present in `smaller` fits in the corresponding value of `larger`. -/
def fitIn (larger smaller : Resource) : Bool :=
  smaller.all (fun p => p.2 ≤ resGet larger p.1)

/-- Modelled from the spec: `resources.StrictlyGreaterThanZero` — at least
one type positive and none negative. -/
def strictlyGreaterThanZero (r : Resource) : Bool :=
  r.any (fun p => 0 < p.2) && r.all (fun p => 0 ≤ p.2)

/-- Modelled from the spec: `resources.IsZero`. -/
def isZero (r : Resource) : Bool :=
  r.all (fun p => p.2 == 0)

theorem findFirst_map_key {β : Type} (l : List String) (f : String → β) (k : String)
    (hnd : l.Nodup) :
    findFirst (fun p => p.1 == k) (l.map (fun x => (x, f x))) =
      if k ∈ l then some (k, f k) else none := by
  induction l with
  | nil => simp [findFirst]
  | cons x xs ih =>
      rcases List.nodup_cons.mp hnd with ⟨hx, hxs⟩
      by_cases hxk : x = k
      · subst hxk
        simp [findFirst, hx]
      · have hb : (x == k) = false := by simp [hxk]
        have hkx : ¬ k = x := fun h => hxk h.symm
        simp [findFirst, hb, ih hxs, hkx]

theorem resGet_absent {r : Resource} {k : String} (h : k ∉ r.map Prod.fst) :
    resGet r k = 0 := by
  unfold resGet
  have hn : findFirst (fun p => p.1 == k) r = none := by
    rw [findFirst_eq_none]
    intro p hp
    have : p.1 ≠ k := fun e => h (e ▸ List.mem_map_of_mem Prod.fst hp)
    simp [this]
  simp [hn]

theorem resGet_map_keys (l : List String) (hnd : l.Nodup) (f : String → Int) (k : String) :
    resGet (l.map (fun x => (x, f x))) k = if k ∈ l then f k else 0 := by
  unfold resGet
  rw [findFirst_map_key _ _ _ hnd]
  by_cases hk : k ∈ l <;> simp [hk]

theorem resGet_addRes (a b : Resource) (k : String) :
    resGet (addRes a b) k = resGet a k + resGet b k := by
  unfold addRes
  rw [resGet_map_keys (resKeys a b) (by unfold resKeys; exact List.nodup_dedup _)]
  by_cases hk : k ∈ resKeys a b
  · simp [hk]
  · have hka : k ∉ a.map Prod.fst := fun h =>
      hk (List.mem_dedup.mpr (List.mem_append.mpr (Or.inl h)))
    have hkb : k ∉ b.map Prod.fst := fun h =>
      hk (List.mem_dedup.mpr (List.mem_append.mpr (Or.inr h)))
    simp [hk, resGet_absent hka, resGet_absent hkb]

theorem resGet_subErrorNegative (a b : Resource) (k : String) :
    resGet (subErrorNegative a b).1 k = max 0 (resGet a k - resGet b k) := by
  unfold subErrorNegative
  simp only
  rw [resGet_map_keys (resKeys a b) (by unfold resKeys; exact List.nodup_dedup _)]
  by_cases hk : k ∈ resKeys a b
  · simp [hk]
  · have hka : k ∉ a.map Prod.fst := fun h =>
      hk (List.mem_dedup.mpr (List.mem_append.mpr (Or.inl h)))
    have hkb : k ∉ b.map Prod.fst := fun h =>
      hk (List.mem_dedup.mpr (List.mem_append.mpr (Or.inr h)))
    simp [hk, resGet_absent hka, resGet_absent hkb]

theorem mem_resKeys_of_mem_left {a b : Resource} {k : String}
    (h : k ∈ a.map Prod.fst) : k ∈ resKeys a b :=
  List.mem_dedup.mpr (List.mem_append.mpr (Or.inl h))

theorem mem_resKeys_of_mem_right {a b : Resource} {k : String}
    (h : k ∈ b.map Prod.fst) : k ∈ resKeys a b :=
  List.mem_dedup.mpr (List.mem_append.mpr (Or.inr h))

/-- The clamped subtraction is an exact subtraction at every type as soon as
the delta is bounded by the current value on every type of the union. -/
theorem resGet_subErrorNegative_exact (a b : Resource)
    (h : ∀ k ∈ resKeys a b, resGet b k ≤ resGet a k) (k : String) :
    resGet (subErrorNegative a b).1 k = resGet a k - resGet b k := by
  rw [resGet_subErrorNegative]
  by_cases hk : k ∈ resKeys a b
  · have := h k hk
    omega
  · have hka : k ∉ a.map Prod.fst := fun hm => hk (mem_resKeys_of_mem_left hm)
    have hkb : k ∉ b.map Prod.fst := fun hm => hk (mem_resKeys_of_mem_right hm)
    rw [resGet_absent hka, resGet_absent hkb]
    simp

/-! ## Scheduling node (`pkg/scheduler` scheduling node, `part_001`)

`cache.NodeInfo` is not among the sources; it is modelled from the spec as
the node attributes the scheduling node reads: the schedulable flag, the
available resource and the total capacity (`FitInNode` compares against the
capacity: a reserved node must have capacity at least the reserved ask
resource). -/

/-- Modelled from the spec: the slice of `cache.NodeInfo` read by the
scheduling node (`IsSchedulable`, `GetAvailableResource`, `FitInNode`). -/
structure NodeInfo where
  nodeID : String
  schedulable : Bool
  available : Resource
  capacity : Resource
  deriving DecidableEq

/-- `schedulingNode`: per-node scheduler bookkeeping.  Reservations are kept
by their canonical key; the cached available resource value itself is
recomputed on demand and never read by the embedded operations, only its
invalidation flag is tracked. -/
structure SchedulingNode where
  nodeInfo : NodeInfo
  allocating : Resource
  preempting : Resource
  cachedAvailableUpdateNeeded : Bool
  reservations : List String
  deriving DecidableEq

/-- `schedulingNode.preAllocateCheck`: schedulable flag, a strictly positive
request, and the new allocating total must fit in the available resource
(available plus preempting during the preemption phase).  Lock free, no
updates are made. -/
def preAllocateCheck (sn : SchedulingNode) (res : Resource) (preemptionPhase : Bool) : Bool :=
  if !sn.nodeInfo.schedulable then false
  else if !strictlyGreaterThanZero res then false
  else
    let available :=
      if preemptionPhase then addRes sn.nodeInfo.available sn.preempting
      else sn.nodeInfo.available
    let newAllocating := addRes res sn.allocating
    if !fitIn available newAllocating then false else true

/-- `schedulingNode.allocateResource`: re-checks the fit and on success adds
the proposed resource to the allocating total (invalidating the cached
available resource); on failure no changes are made. -/
def allocateResource (sn : SchedulingNode) (res : Resource) (preemptionPhase : Bool) :
    Bool × SchedulingNode :=
  let available :=
    if preemptionPhase then addRes sn.nodeInfo.available sn.preempting
    else sn.nodeInfo.available
  let newAllocating := addRes res sn.allocating
  if fitIn available newAllocating then
    (true, { sn with cachedAvailableUpdateNeeded := true, allocating := newAllocating })
  else
    (false, sn)

/-- `schedulingNode.decAllocatingResource`: clamped subtraction of the delta
from the allocating total, drift is logged (`SubErrorNegative`). -/
def decAllocatingResource (sn : SchedulingNode) (delta : Resource) : SchedulingNode :=
  { sn with cachedAvailableUpdateNeeded := true,
            allocating := (subErrorNegative sn.allocating delta).1 }

/-- `schedulingNode.isReservedForApp`: empty appID is never reserved,
otherwise scan the reservation keys for one having the appID as string
prefix (`strings.HasPrefix`). -/
def hasPrefixGo (s p : String) : Bool :=
  s.toList.take p.toList.length == p.toList

def isReservedForApp (sn : SchedulingNode) (appID : String) : Bool :=
  if appID = "" then false
  else sn.reservations.any (fun key => hasPrefixGo key appID)

/-- `schedulingAllocationAsk`: the ask attributes read by the node and the
partition (allocation key, asked resource, pending repeat). -/
structure SchedulingAllocationAsk where
  allocationKey : String
  allocatedResource : Resource
  pendingRepeat : Int
  deriving DecidableEq

/-- Modelled from the spec: the canonical reservation key `appID|askKey`
(`newReservation`/`reservationKey` with a nil node). -/
def reservationKeyStr (appID askKey : String) : String :=
  appID ++ "|" ++ askKey

/-- `schedulingNode.reserve`: fails when the node already holds any
reservation, when app or ask are nil, or when the ask resource does not fit
in the node capacity; otherwise records the reservation under its key. -/
def reserve (sn : SchedulingNode) (appID : Option String)
    (ask : Option SchedulingAllocationAsk) : Bool × SchedulingNode :=
  if sn.reservations.length > 0 then (false, sn)
  else
    match appID, ask with
    | some a, some k =>
        if !fitIn sn.nodeInfo.capacity k.allocatedResource then (false, sn)
        else (true, { sn with reservations :=
                        sn.reservations ++ [reservationKeyStr a k.allocationKey] })
    | _, _ => (false, sn)

/-- C6: `preAllocateCheck` is a pure predicate equivalent to the conjunction
of the three spec conditions. -/
theorem preAllocateCheck_iff (sn : SchedulingNode) (res : Resource) (phase : Bool) :
    preAllocateCheck sn res phase = true ↔
      sn.nodeInfo.schedulable = true ∧
      strictlyGreaterThanZero res = true ∧
      fitIn (if phase then addRes sn.nodeInfo.available sn.preempting
             else sn.nodeInfo.available)
            (addRes res sn.allocating) = true := by
  unfold preAllocateCheck
  by_cases h1 : sn.nodeInfo.schedulable <;>
    by_cases h2 : strictlyGreaterThanZero res <;>
      by_cases h3 : fitIn (if phase then addRes sn.nodeInfo.available sn.preempting
          else sn.nodeInfo.available) (addRes res sn.allocating) <;>
        simp_all

/-- C7: when the proposal does not fit, `allocateResource` returns false and
the node (its allocating total in particular) is unchanged; when it fits, it
returns true and every type of the allocating total grows by the proposal. -/
theorem allocateResource_spec (sn : SchedulingNode) (res : Resource) (phase : Bool) :
    (fitIn (if phase then addRes sn.nodeInfo.available sn.preempting
            else sn.nodeInfo.available) (addRes res sn.allocating) = false →
        allocateResource sn res phase = (false, sn)) ∧
    (fitIn (if phase then addRes sn.nodeInfo.available sn.preempting
            else sn.nodeInfo.available) (addRes res sn.allocating) = true →
        (allocateResource sn res phase).1 = true ∧
        ∀ t, resGet (allocateResource sn res phase).2.allocating t =
              resGet sn.allocating t + resGet res t) := by
  constructor
  · intro h
    simp [allocateResource, h]
  · intro h
    refine ⟨by simp [allocateResource, h], fun t => ?_⟩
    have hred : (allocateResource sn res phase).2.allocating = addRes res sn.allocating := by
      simp [allocateResource, h]
    rw [hred, resGet_addRes]
    omega

/-- C10: `isReservedForApp` is exactly the string-prefix scan over the
reservation keys; in particular a node whose only reservation was placed by
application `app-10` reports itself as reserved for the unrelated
application `app-1`. -/
theorem isReservedForApp_prefix_semantics :
    (∀ (sn : SchedulingNode) (appID : String),
        isReservedForApp sn appID = true ↔
          appID ≠ "" ∧ ∃ key ∈ sn.reservations, hasPrefixGo key appID = true) ∧
    (∀ (ni : NodeInfo) (al pr : Resource) (b : Bool),
        isReservedForApp
          { nodeInfo := ni, allocating := al, preempting := pr,
            cachedAvailableUpdateNeeded := b,
            reservations := [reservationKeyStr "app-10" "ask-1"] } "app-1" = true) ∧
    "app-10" ≠ "app-1" := by
  refine ⟨fun sn appID => ?_, fun ni al pr b => ?_, by decide⟩
  · unfold isReservedForApp
    by_cases h : appID = ""
    · simp [h]
    · simp [h, List.any_eq_true]
  · unfold isReservedForApp
    simp only [if_neg (by decide : ¬("app-1" : String) = "")]
    decide

/-- A node already holding a reservation from `app-A`, with ample capacity. -/
def reservedDemoNode : SchedulingNode :=
  { nodeInfo := { nodeID := "node-1", schedulable := true,
                  available := [("memory", 80)], capacity := [("memory", 100)] },
    allocating := [], preempting := [], cachedAvailableUpdateNeeded := true,
    reservations := [reservationKeyStr "app-A" "ask-0"] }

/-- An ask from a different application that fits in the node capacity. -/
def reservedDemoAsk : SchedulingAllocationAsk :=
  { allocationKey := "ask-1", allocatedResource := [("memory", 10)], pendingRepeat := 1 }

/-- C3 counterexample: the node holds one reservation (from `app-A`), the ask
of `app-B` fits in the capacity and `app-B` differs from `app-A`, yet
`reserve` refuses and adds no second reservation. -/
theorem reserve_second_app_refused :
    fitIn reservedDemoNode.nodeInfo.capacity reservedDemoAsk.allocatedResource = true ∧
    ("app-B" : String) ≠ "app-A" ∧
    reserve reservedDemoNode (some "app-B") (some reservedDemoAsk) =
      (false, reservedDemoNode) := by
  refine ⟨by decide, by decide, ?_⟩
  rfl

/-- C3 amended: a node holds at most one reservation — `reserve` on a node
with any existing reservation fails and leaves the node unchanged, whatever
the application. -/
theorem reserve_rejects_any_second_reservation (sn : SchedulingNode)
    (appID : Option String) (ask : Option SchedulingAllocationAsk)
    (h : sn.reservations ≠ []) :
    reserve sn appID ask = (false, sn) := by
  unfold reserve
  have hlen : 0 < sn.reservations.length := List.length_pos.mpr h
  simp [hlen]

/-- C3 witness: the amended theorem applied to the demo node. -/
theorem reserve_rejects_any_second_reservation_witness :
    reservedDemoNode.reservations ≠ [] ∧
    reserve reservedDemoNode (some "app-B") (some reservedDemoAsk) =
      (false, reservedDemoNode) :=
  ⟨by decide, reserve_rejects_any_second_reservation reservedDemoNode
      (some "app-B") (some reservedDemoAsk) (by decide)⟩

/-! ## Application state machine (`part_001`, `NewAppState`)

The transition table is embedded exactly as configured in `NewAppState`.
The dispatch behaviour of the `looplab/fsm` library (not among the sources)
is modelled from the spec: an event fires when the current state appears in
the `Src` list of an entry for that event and moves to that entry's `Dst`;
an event with no matching entry leaves the state unchanged and returns an
error. -/

inductive ApplicationState
  | new
  | accepted
  | starting
  | running
  | waiting
  | rejected
  | completed
  | killed
  | deleting
  deriving DecidableEq, Fintype, Repr

inductive ApplicationEvent
  | runApplication
  | waitApplication
  | rejectApplication
  | completeApplication
  | killApplication
  | deleteApplication
  deriving DecidableEq, Fintype, Repr

open ApplicationState ApplicationEvent

/-- The `fsm.Events` table of `NewAppState`, in source order: event name,
source states, destination state. -/
def appStateEvents : List (ApplicationEvent × List ApplicationState × ApplicationState) :=
  [ (rejectApplication, [new], rejected),
    (runApplication, [new], accepted),
    (runApplication, [accepted], starting),
    (runApplication, [running, starting, waiting], running),
    (completeApplication, [running, starting, waiting], completed),
    (waitApplication, [accepted, running, starting], waiting),
    (killApplication, [accepted, killed, new, running, starting, waiting], killed),
    (deleteApplication, [completed], deleting) ]

/-- The destination of an event from a state: the first table entry naming
the event whose source list holds the state. -/
def appTransition (s : ApplicationState) (e : ApplicationEvent) : Option ApplicationState :=
  match findFirst (fun t => t.1 == e && t.2.1.contains s) appStateEvents with
  | some t => some t.2.2
  | none => none

/-- Delivering an event to the state machine: a matching entry moves to its
destination, otherwise the state is unchanged and an error is returned
(the Bool component). -/
def fireApplicationEvent (s : ApplicationState) (e : ApplicationEvent) :
    ApplicationState × Bool :=
  match appTransition s e with
  | some t => (t, false)
  | none => (s, true)

/-- The (From, Event, To) triples listed by the specification, rows of the
spec table expanded. -/
def specListedTransitions : List (ApplicationState × ApplicationEvent × ApplicationState) :=
  [ (new, rejectApplication, rejected),
    (new, runApplication, accepted),
    (accepted, runApplication, starting),
    (starting, runApplication, running),
    (running, runApplication, running),
    (waiting, runApplication, running),
    (starting, completeApplication, completed),
    (running, completeApplication, completed),
    (waiting, completeApplication, completed),
    (accepted, waitApplication, waiting),
    (starting, waitApplication, waiting),
    (running, waitApplication, waiting),
    (accepted, killApplication, killed),
    (new, killApplication, killed),
    (starting, killApplication, killed),
    (running, killApplication, killed),
    (waiting, killApplication, killed),
    (killed, killApplication, killed),
    (completed, deleteApplication, deleting) ]

/-- C1: the state machine fires exactly the listed (From, Event, To)
triples; for every state and event with no listed transition the state is
unchanged and an error is returned. -/
theorem application_fsm_matches_spec :
    ∀ (s : ApplicationState) (e : ApplicationEvent),
      (∀ t, fireApplicationEvent s e = (t, false) ↔
          (s, e, t) ∈ specListedTransitions) ∧
      ((∀ t, (s, e, t) ∉ specListedTransitions) →
          fireApplicationEvent s e = (s, true)) := by
  decide

/-- C1 witness: a state/event pair with no listed transition — `Delete` in
`Running` — leaves the state unchanged and errors. -/
theorem application_fsm_matches_spec_witness :
    (∀ t, (running, deleteApplication, t) ∉ specListedTransitions) ∧
    fireApplicationEvent running deleteApplication = (running, true) :=
  ⟨by decide,
   (application_fsm_matches_spec running deleteApplication).2 (by decide)⟩

/-- A small node used to exercise the allocation bookkeeping. -/
def allocDemoNode : SchedulingNode :=
  { nodeInfo := { nodeID := "node-2", schedulable := true,
                  available := [("memory", 50)], capacity := [("memory", 100)] },
    allocating := [("memory", 10)], preempting := [],
    cachedAvailableUpdateNeeded := false, reservations := [] }

/-- C7 witness: a fitting proposal is accepted and adds to the allocating
total; an oversized proposal is refused and changes nothing. -/
theorem allocateResource_spec_witness :
    ((allocateResource allocDemoNode [("memory", 20)] false).1 = true ∧
      ∀ t, resGet (allocateResource allocDemoNode [("memory", 20)] false).2.allocating t =
            resGet allocDemoNode.allocating t + resGet [("memory", 20)] t) ∧
    allocateResource allocDemoNode [("memory", 60)] false = (false, allocDemoNode) :=
  ⟨(allocateResource_spec allocDemoNode [("memory", 20)] false).2 (by decide),
   (allocateResource_spec allocDemoNode [("memory", 60)] false).1 (by decide)⟩

/-! ## Partition name helpers (`part_000`, package `common`)

Go strings are embedded as lists of characters; `strings.Index` returns the
first index of the character or -1. -/

/-- `strings.Index` for a single character. -/
def goIndexOf (s : List Char) (c : Char) : Int :=
  match s with
  | [] => -1
  | x :: xs =>
      if x = c then 0
      else
        let r := goIndexOf xs c
        if r < 0 then -1 else r + 1

def defaultPartition : List Char := ['d', 'e', 'f', 'a', 'u', 'l', 't']

/-- `GetNormalizedPartitionName`: empty names become `default`; an already
normalized name (starting with `[`) is returned as is; otherwise the result
is `[rmID]partitionName`. -/
def GetNormalizedPartitionName (partitionName rmID : List Char) : List Char :=
  let pn := if partitionName = [] then defaultPartition else partitionName
  if pn.head? = some '[' then pn
  else '[' :: (rmID ++ ']' :: pn)

/-- `GetRMIdFromPartitionName`: the characters between the leading `[` and
the first `]`, empty when there is no `]` past position zero. -/
def GetRMIdFromPartitionName (partitionName : List Char) : List Char :=
  let idx := goIndexOf partitionName ']'
  if 0 < idx then (partitionName.drop 1).take (idx.toNat - 1) else []

/-- `GetPartitionNameWithoutClusterID`: the characters after the first `]`,
or the whole name when there is no `]` past position zero. -/
def GetPartitionNameWithoutClusterID (partitionName : List Char) : List Char :=
  let idx := goIndexOf partitionName ']'
  if 0 < idx then partitionName.drop (idx.toNat + 1) else partitionName

theorem goIndexOf_append_first {l : List Char} {c : Char} (h : c ∉ l) (t : List Char) :
    goIndexOf (l ++ c :: t) c = l.length := by
  induction l with
  | nil => simp [goIndexOf]
  | cons x xs ih =>
      have hx : x ≠ c := fun e => h (e ▸ List.mem_cons_self x xs)
      have hxs : c ∉ xs := fun m => h (List.mem_cons_of_mem x m)
      have hr := ih hxs
      simp only [List.cons_append, goIndexOf, if_neg hx, hr]
      have : ¬(List.length xs : Int) < 0 := by omega
      simp [this]
      omega

/-- C9: partition-name normalization round-trips — for an rmID free of `]`
and a name not starting with `[`, the rmID and the name (or `default` for
the empty name) are recovered from the normalized form. -/
theorem partition_name_roundtrip (rmID name : List Char)
    (hrm : ']' ∉ rmID) (hname : name.head? ≠ some '[') :
    GetRMIdFromPartitionName (GetNormalizedPartitionName name rmID) = rmID ∧
    GetPartitionNameWithoutClusterID (GetNormalizedPartitionName name rmID) =
      (if name = [] then defaultPartition else name) := by
  have hpn : GetNormalizedPartitionName name rmID =
      '[' :: (rmID ++ ']' :: (if name = [] then defaultPartition else name)) := by
    unfold GetNormalizedPartitionName
    by_cases h0 : name = []
    · simp [h0, defaultPartition]
    · have : name.head? ≠ some '[' := hname
      simp only [h0, if_neg h0]
      cases name with
      | nil => exact absurd rfl h0
      | cons c cs =>
          have hc : c ≠ '[' := by
            intro e
            exact hname (by simp [e])
          simp [List.head?, hc]
  set pn := if name = [] then defaultPartition else name with hpndef
  have hidx : goIndexOf (GetNormalizedPartitionName name rmID) ']' =
      (rmID.length : Int) + 1 := by
    rw [hpn]
    have hin : goIndexOf (rmID ++ ']' :: pn) ']' = rmID.length :=
      goIndexOf_append_first hrm pn
    have hbr : ('[' : Char) ≠ ']' := by decide
    simp only [goIndexOf, if_neg hbr, hin]
    have : ¬(List.length rmID : Int) < 0 := by omega
    simp [this]
  constructor
  · unfold GetRMIdFromPartitionName
    rw [hidx, hpn]
    have hpos : (0 : Int) < (rmID.length : Int) + 1 := by positivity
    simp only [if_pos hpos]
    have htn : ((rmID.length : Int) + 1).toNat - 1 = rmID.length := by omega
    rw [htn]
    simp [List.take_append]
  · unfold GetPartitionNameWithoutClusterID
    rw [hidx, hpn]
    have hpos : (0 : Int) < (rmID.length : Int) + 1 := by positivity
    simp only [if_pos hpos]
    have htn : ((rmID.length : Int) + 1).toNat + 1 = rmID.length + 2 := by omega
    rw [htn]
    have : ('[' :: (rmID ++ ']' :: pn)).drop (rmID.length + 2) = pn := by
      have hlen : rmID.length + 2 = ('[' :: (rmID ++ [']'])).length := by
        simp
      have hassoc : ('[' :: (rmID ++ ']' :: pn)) = ('[' :: (rmID ++ [']'])) ++ pn := by
        simp
      rw [hassoc, hlen, List.drop_left]
    rw [this]

/-- C9 witness: rmID `rm1` and name `gpu` round-trip through normalization;
the empty name yields `default`. -/
theorem partition_name_roundtrip_witness :
    (']' ∉ ['r', 'm', '1']) ∧
    GetRMIdFromPartitionName
        (GetNormalizedPartitionName ['g', 'p', 'u'] ['r', 'm', '1']) = ['r', 'm', '1'] ∧
    GetPartitionNameWithoutClusterID
        (GetNormalizedPartitionName ['g', 'p', 'u'] ['r', 'm', '1']) = ['g', 'p', 'u'] ∧
    GetPartitionNameWithoutClusterID
        (GetNormalizedPartitionName [] ['r', 'm', '1']) = defaultPartition := by
  have h1 := partition_name_roundtrip ['r', 'm', '1'] ['g', 'p', 'u']
      (by decide) (by decide)
  have h2 := partition_name_roundtrip ['r', 'm', '1'] [] (by decide) (by decide)
  refine ⟨by decide, h1.1, ?_, ?_⟩
  · have := h1.2
    simpa using this
  · have := h2.2
    simpa using this

/-! ## Configuration loader checksum (`pkg/common/configs/config.go`)

Bytes are embedded as naturals.  The `crypto/sha256` digest (an external
library) is abstracted as a parameter; per the Go standard library,
`hash.Hash.Sum(b)` appends the digest of the bytes *written so far* to the
slice `b` — `LoadSchedulerConfigFromByteArray` never writes the content
into the hash, so the digest appended is that of the empty stream.
YAML parsing and validation (external / not among the sources) are
abstracted as an acceptance predicate. -/

/-- Go `hash.Hash.Sum`: append the digest of the written bytes to `b`. -/
def goHashSum (digest : List Nat → List Nat) (written b : List Nat) : List Nat :=
  b ++ digest written

/-- The slice of `SchedulerConfig` the claim reads. -/
structure SchedulerConfig where
  checksum : List Nat
  deriving DecidableEq

/-- `LoadSchedulerConfigFromByteArray`: on accepted content, returns the
config whose Checksum is `h.Sum(content)` for a fresh (never written)
sha256 hash `h`. -/
def LoadSchedulerConfigFromByteArray (digest : List Nat → List Nat)
    (parseOk : List Nat → Bool) (content : List Nat) : Option SchedulerConfig :=
  if parseOk content then some { checksum := goHashSum digest [] content }
  else none

/-- C8: for any digest function producing 32-byte digests (as SHA-256 does)
and any accepted non-trivial input — the one-byte file `a` — the stored
Checksum is the input with the empty-stream digest appended, and in
particular is NOT the digest of the raw input bytes. -/
theorem loadSchedulerConfig_checksum_bug (digest : List Nat → List Nat)
    (parseOk : List Nat → Bool)
    (hlen : ∀ l, (digest l).length = 32)
    (hok : parseOk [97] = true) :
    LoadSchedulerConfigFromByteArray digest parseOk [97] =
      some { checksum := [97] ++ digest [] } ∧
    ([97] ++ digest []) ≠ digest [97] := by
  constructor
  · unfold LoadSchedulerConfigFromByteArray goHashSum
    simp [hok]
  · intro h
    have hl := congrArg List.length h
    simp [hlen] at hl

/-- C8 witness: the bug theorem applied to a concrete 32-byte digest
function and an always-accepting parser. -/
theorem loadSchedulerConfig_checksum_bug_witness :
    (∀ l : List Nat, ((fun (_ : List Nat) => List.replicate 32 0) l).length = 32) ∧
    ((fun (_ : List Nat) => true) [97]) = true ∧
    (LoadSchedulerConfigFromByteArray (fun _ => List.replicate 32 0) (fun _ => true) [97] =
        some { checksum := [97] ++ List.replicate 32 0 } ∧
      ([97] ++ List.replicate 32 0) ≠ List.replicate 32 0) :=
  ⟨fun l => by simp, rfl,
   loadSchedulerConfig_checksum_bug (fun _ => List.replicate 32 0) (fun _ => true)
     (fun l => by simp) rfl⟩

/-! ## Partition confirm path (`pkg/scheduler/scheduling_partition.go`)

`SchedulingApplication` and `SchedulingQueue` are not among the sources;
the slices `confirmAllocation` touches are modelled from the spec: the
application's allocating resource, its ask ledger (pending repeats), and
the allocating resources of its queue and that queue's ancestors
(`decAllocatingResource` is recursive to the root and clamps below zero).
`updateAskRepeat` adjusts the pending repeat of the ask and is a noop when
the ask was removed in the mean time. -/

/-- Modelled from the spec: the slice of `SchedulingApplication` read and
written by the confirm path.  `queueAllocating` lists the allocating
resource of the application's queue and its ancestors, leaf first. -/
structure SchedulingApplication where
  applicationID : String
  allocating : Resource
  asks : List SchedulingAllocationAsk
  queueAllocating : List Resource
  deriving DecidableEq

/-- Modelled from the spec: `schedulingApplication.decAllocatingResource`
and `SchedulingQueue.decAllocatingResource` (recursive to the root),
clamping below zero as drift. -/
def appDecAllocatingResource (app : SchedulingApplication) (delta : Resource) :
    SchedulingApplication :=
  { app with
      allocating := (subErrorNegative app.allocating delta).1,
      queueAllocating := app.queueAllocating.map (fun r => (subErrorNegative r delta).1) }

/-- Modelled from the spec: `updateAskRepeat` — adds the delta to the
pending repeat of the ask; a noop without error when the ask is gone. -/
def updateAskRepeat (app : SchedulingApplication) (allocKey : String) (delta : Int) :
    SchedulingApplication × Option String :=
  match findFirst (fun a => a.allocationKey == allocKey) app.asks with
  | none => (app, none)
  | some _ =>
      ({ app with
          asks := app.asks.map (fun a =>
            if a.allocationKey == allocKey then
              { a with pendingRepeat := a.pendingRepeat + delta }
            else a) }, none)

/-- `commonevents.AllocationProposal`: the fields the confirm path reads. -/
structure AllocationProposal where
  applicationID : String
  nodeID : String
  allocationKey : String
  allocatedResource : Resource
  deriving DecidableEq

/-- The partition scheduling context maps touched by the confirm path. -/
structure PartitionSchedulingContext where
  applications : List (String × SchedulingApplication)
  nodes : List (String × SchedulingNode)
  deriving DecidableEq

def lookupAssoc {β : Type} (l : List (String × β)) (k : String) : Option β :=
  (findFirst (fun p => p.1 == k) l).map (fun p => p.2)

def updAssoc {β : Type} (l : List (String × β)) (k : String) (v : β) :
    List (String × β) :=
  l.map (fun p => if p.1 == k then (k, v) else p)

/-- `partitionSchedulingContext.confirmAllocation`: validates that the
application and the node still exist, updates the allocating resources of
app, queue chain and node by the proposal resource when it is non-zero; on
reject (confirm = false) adds the repeat back through `updateAskRepeat`; on
confirm surfaces a stale-ask error when the ask no longer exists. -/
def confirmAllocation (psc : PartitionSchedulingContext)
    (allocProposal : AllocationProposal) (confirm : Bool) :
    PartitionSchedulingContext × Option String :=
  match lookupAssoc psc.applications allocProposal.applicationID with
  | none => (psc, some "application was removed while allocating")
  | some app =>
    match lookupAssoc psc.nodes allocProposal.nodeID with
    | none => (psc, some "node was removed while allocating")
    | some node =>
      let delta := allocProposal.allocatedResource
      let app₁ := if isZero delta then app else appDecAllocatingResource app delta
      let node₁ := if isZero delta then node else decAllocatingResource node delta
      if !confirm then
        let upd := updateAskRepeat app₁ allocProposal.allocationKey 1
        ({ applications := updAssoc psc.applications allocProposal.applicationID upd.1,
           nodes := updAssoc psc.nodes allocProposal.nodeID node₁ }, upd.2)
      else if (findFirst (fun a => a.allocationKey == allocProposal.allocationKey)
          app₁.asks).isNone then
        ({ applications := updAssoc psc.applications allocProposal.applicationID app₁,
           nodes := updAssoc psc.nodes allocProposal.nodeID node₁ },
         some "ask was removed while allocating")
      else
        ({ applications := updAssoc psc.applications allocProposal.applicationID app₁,
           nodes := updAssoc psc.nodes allocProposal.nodeID node₁ }, none)

theorem lookupAssoc_updAssoc_self {β : Type} {l : List (String × β)} {k : String}
    {x : β} (v : β) (h : lookupAssoc l k = some x) :
    lookupAssoc (updAssoc l k v) k = some v := by
  induction l with
  | nil => simp [lookupAssoc, findFirst] at h
  | cons p ps ih =>
      by_cases hp : p.1 == k
      · simp [lookupAssoc, updAssoc, findFirst, hp]
      · have h' : lookupAssoc ps k = some x := by
          simpa [lookupAssoc, findFirst, hp] using h
        have := ih h'
        simpa [lookupAssoc, updAssoc, findFirst, hp] using this

theorem findFirst_map_ite {α : Type} {p : α → Bool} {f : α → α}
    (hp : ∀ a, p (f a) = p a) (l : List α) :
    findFirst p (l.map (fun a => if p a then f a else a)) =
      (findFirst p l).map f := by
  induction l with
  | nil => simp [findFirst]
  | cons x xs ih =>
      by_cases hx : p x
      · simp [findFirst, hx, hp]
      · simp [findFirst, hx, ih]

/-- C2: rejecting a proposal (confirm = false) whose application and node
still exist decreases the allocating resource of the application, of its
queue and of the node by the proposal resource on every type (exactly, as
long as the proposal is bounded by each current allocating total), and adds
exactly 1 to the pending repeat of the ask. -/
theorem confirmAllocation_reject_spec (psc : PartitionSchedulingContext)
    (prop : AllocationProposal) (app : SchedulingApplication)
    (node : SchedulingNode) (qh : Resource) (qt : List Resource)
    (ask : SchedulingAllocationAsk)
    (happ : lookupAssoc psc.applications prop.applicationID = some app)
    (hnode : lookupAssoc psc.nodes prop.nodeID = some node)
    (hq : app.queueAllocating = qh :: qt)
    (hask : findFirst (fun a => a.allocationKey == prop.allocationKey) app.asks = some ask)
    (hnz : isZero prop.allocatedResource = false)
    (hfa : ∀ k ∈ resKeys app.allocating prop.allocatedResource,
        resGet prop.allocatedResource k ≤ resGet app.allocating k)
    (hfq : ∀ k ∈ resKeys qh prop.allocatedResource,
        resGet prop.allocatedResource k ≤ resGet qh k)
    (hfn : ∀ k ∈ resKeys node.allocating prop.allocatedResource,
        resGet prop.allocatedResource k ≤ resGet node.allocating k) :
    (confirmAllocation psc prop false).2 = none ∧
    ∃ app' node' qh' qt' ask',
      lookupAssoc (confirmAllocation psc prop false).1.applications
          prop.applicationID = some app' ∧
      lookupAssoc (confirmAllocation psc prop false).1.nodes prop.nodeID = some node' ∧
      (∀ k, resGet app'.allocating k =
          resGet app.allocating k - resGet prop.allocatedResource k) ∧
      app'.queueAllocating = qh' :: qt' ∧
      (∀ k, resGet qh' k = resGet qh k - resGet prop.allocatedResource k) ∧
      (∀ k, resGet node'.allocating k =
          resGet node.allocating k - resGet prop.allocatedResource k) ∧
      findFirst (fun a => a.allocationKey == prop.allocationKey) app'.asks = some ask' ∧
      ask'.pendingRepeat = ask.pendingRepeat + 1 := by
  have hkey : ∀ a : SchedulingAllocationAsk,
      (({ a with pendingRepeat := a.pendingRepeat + 1} :
          SchedulingAllocationAsk).allocationKey == prop.allocationKey) =
        (a.allocationKey == prop.allocationKey) := fun a => rfl
  have hupd : updateAskRepeat (appDecAllocatingResource app prop.allocatedResource)
      prop.allocationKey 1 =
      ({ appDecAllocatingResource app prop.allocatedResource with
          asks := app.asks.map (fun a =>
            if a.allocationKey == prop.allocationKey then
              { a with pendingRepeat := a.pendingRepeat + 1 }
            else a) }, none) := by
    unfold updateAskRepeat appDecAllocatingResource
    simp only [hask]
  have hconf : confirmAllocation psc prop false =
      ({ applications := updAssoc psc.applications prop.applicationID
            ({ appDecAllocatingResource app prop.allocatedResource with
                asks := app.asks.map (fun a =>
                  if a.allocationKey == prop.allocationKey then
                    { a with pendingRepeat := a.pendingRepeat + 1 }
                  else a) }),
         nodes := updAssoc psc.nodes prop.nodeID
            (decAllocatingResource node prop.allocatedResource) }, none) := by
    unfold confirmAllocation
    simp only [happ, hnode, hnz, hupd, Bool.not_false, if_false, if_true, Bool.false_eq_true,
      ite_false]
  rw [hconf]
  refine ⟨rfl, _, _, (subErrorNegative qh prop.allocatedResource).1,
      qt.map (fun r => (subErrorNegative r prop.allocatedResource).1),
      { ask with pendingRepeat := ask.pendingRepeat + 1 },
      lookupAssoc_updAssoc_self _ happ, lookupAssoc_updAssoc_self _ hnode,
      ?_, ?_, ?_, ?_, ?_, rfl⟩
  · intro k
    exact resGet_subErrorNegative_exact _ _ hfa k
  · simp [appDecAllocatingResource, hq]
  · intro k
    exact resGet_subErrorNegative_exact _ _ hfq k
  · intro k
    exact resGet_subErrorNegative_exact _ _ hfn k
  · simp only
    rw [findFirst_map_ite hkey app.asks, hask]
    rfl

def confirmDemoAsk : SchedulingAllocationAsk :=
  { allocationKey := "ask-7", allocatedResource := [("memory", 5)], pendingRepeat := 2 }

def confirmDemoApp : SchedulingApplication :=
  { applicationID := "app-7", allocating := [("memory", 5)],
    asks := [confirmDemoAsk],
    queueAllocating := [[("memory", 8)], [("memory", 8)]] }

def confirmDemoNode : SchedulingNode :=
  { nodeInfo := { nodeID := "node-3", schedulable := true,
                  available := [("memory", 90)], capacity := [("memory", 100)] },
    allocating := [("memory", 10)], preempting := [],
    cachedAvailableUpdateNeeded := true, reservations := [] }

def confirmDemoPsc : PartitionSchedulingContext :=
  { applications := [("app-7", confirmDemoApp)], nodes := [("node-3", confirmDemoNode)] }

def confirmDemoProp : AllocationProposal :=
  { applicationID := "app-7", nodeID := "node-3", allocationKey := "ask-7",
    allocatedResource := [("memory", 5)] }

/-- C2 witness: the reject theorem at a concrete partition with one
application, one queue chain, one node and one ask. -/
theorem confirmAllocation_reject_spec_witness :
    (lookupAssoc confirmDemoPsc.applications confirmDemoProp.applicationID =
        some confirmDemoApp) ∧
    (lookupAssoc confirmDemoPsc.nodes confirmDemoProp.nodeID = some confirmDemoNode) ∧
    (confirmDemoApp.queueAllocating = [("memory", 8)] :: [[("memory", 8)]]) ∧
    (findFirst (fun a => a.allocationKey == confirmDemoProp.allocationKey)
        confirmDemoApp.asks = some confirmDemoAsk) ∧
    (isZero confirmDemoProp.allocatedResource = false) ∧
    ((confirmAllocation confirmDemoPsc confirmDemoProp false).2 = none ∧
      ∃ app' node' qh' qt' ask',
        lookupAssoc (confirmAllocation confirmDemoPsc confirmDemoProp false).1.applications
            confirmDemoProp.applicationID = some app' ∧
        lookupAssoc (confirmAllocation confirmDemoPsc confirmDemoProp false).1.nodes
            confirmDemoProp.nodeID = some node' ∧
        (∀ k, resGet app'.allocating k =
            resGet confirmDemoApp.allocating k -
              resGet confirmDemoProp.allocatedResource k) ∧
        app'.queueAllocating = qh' :: qt' ∧
        (∀ k, resGet qh' k = resGet [("memory", 8)] k -
            resGet confirmDemoProp.allocatedResource k) ∧
        (∀ k, resGet node'.allocating k =
            resGet confirmDemoNode.allocating k -
              resGet confirmDemoProp.allocatedResource k) ∧
        findFirst (fun a => a.allocationKey == confirmDemoProp.allocationKey)
            app'.asks = some ask' ∧
        ask'.pendingRepeat = confirmDemoAsk.pendingRepeat + 1) :=
  ⟨by decide, by decide, by decide, by decide, by decide,
   confirmAllocation_reject_spec confirmDemoPsc confirmDemoProp confirmDemoApp
     confirmDemoNode [("memory", 8)] [[("memory", 8)]] confirmDemoAsk
     (by decide) (by decide) (by decide) (by decide) (by decide)
     (by decide) (by decide) (by decide)⟩

/-! ## State-aware application filter (`StateAwareFilter`, `pkg/common/maps`
companion file `defaults`)

`interfaces.Application` is embedded as the attributes the filter reads:
the current state (a string, as compared in the source), the pending
resource and the submission time (an integer instant; `After` is `>`).
The Go map iteration is embedded as an explicit list in iteration order. -/

structure FilterApp where
  appID : String
  state : String
  pending : Resource
  submissionTime : Int
  deriving DecidableEq

/-- The loop of `StateAwareFilter`: accumulates the filtered list, the
tracked accepted app and the found-starting flag, then appends the tracked
accepted app. -/
def stateAwareAux : List FilterApp → List FilterApp → Option FilterApp → Bool →
    List FilterApp
  | [], filteredApps, acceptedApp, _ =>
      match acceptedApp with
      | some a => filteredApps ++ [a]
      | none => filteredApps
  | app :: rest, filteredApps, acceptedApp, foundStarting =>
      let foundStarting' := if app.state == "Starting" then true else foundStarting
      let accepted₀ := if app.state == "Starting" then none else acceptedApp
      if strictlyGreaterThanZero app.pending then
        if app.state == "Accepted" then
          let accepted₁ :=
            if !foundStarting' &&
                (accepted₀.isNone ||
                  (match accepted₀ with
                   | some acc => decide (app.submissionTime < acc.submissionTime)
                   | none => false)) then some app
            else accepted₀
          stateAwareAux rest filteredApps accepted₁ foundStarting'
        else
          stateAwareAux rest (filteredApps ++ [app]) accepted₀ foundStarting'
      else
        stateAwareAux rest filteredApps accepted₀ foundStarting'

/-- `StateAwareFilter`: only one application with a state that is not
running is allowed in the candidate list (per the source comment). -/
def StateAwareFilter (apps : List FilterApp) : List FilterApp :=
  stateAwareAux apps [] none false

/-- Two Starting applications, both with pending resource. -/
def starterA : FilterApp :=
  { appID := "app-s1", state := "Starting", pending := [("memory", 1)],
    submissionTime := 1 }

def starterB : FilterApp :=
  { appID := "app-s2", state := "Starting", pending := [("memory", 1)],
    submissionTime := 2 }

/-- C4 counterexample: with two Starting applications that have pending
resource, the filter returns both — two candidates that are not Running —
refuting "at most one candidate that is not in the Running state". -/
theorem stateAwareFilter_two_non_running :
    StateAwareFilter [starterA, starterB] = [starterA, starterB] ∧
    ¬ ((StateAwareFilter [starterA, starterB]).countP
        (fun a => !(a.state == "Running")) ≤ 1) := by
  constructor
  · rfl
  · decide

theorem stateAwareAux_extends (l : List FilterApp) :
    ∀ (filtered : List FilterApp) (acc : Option FilterApp) (fS : Bool),
      ∃ rest, stateAwareAux l filtered acc fS = filtered ++ rest := by
  induction l with
  | nil =>
      intro filtered acc fS
      cases acc with
      | none => exact ⟨[], by simp [stateAwareAux]⟩
      | some a => exact ⟨[a], by simp [stateAwareAux]⟩
  | cons app rest ih =>
      intro filtered acc fS
      by_cases hpd : strictlyGreaterThanZero app.pending
      · by_cases hac : app.state == "Accepted"
        · obtain ⟨r, hr⟩ := ih filtered _ _
          exact ⟨r, by simp only [stateAwareAux, hpd, hac, if_true]; exact hr⟩
        · obtain ⟨r, hr⟩ := ih (filtered ++ [app]) _ _
          refine ⟨[app] ++ r, ?_⟩
          simp only [stateAwareAux, hpd, if_true]
          rw [if_neg (by simpa using hac)]
          rw [hr, List.append_assoc]
      · obtain ⟨r, hr⟩ := ih filtered _ _
        exact ⟨r, by simp only [stateAwareAux, hpd, if_false]; exact hr⟩

theorem stateAwareAux_complete (l : List FilterApp) :
    ∀ (filtered : List FilterApp) (acc : Option FilterApp) (fS : Bool)
      (b : FilterApp), b ∈ l → b.state ≠ "Accepted" →
      strictlyGreaterThanZero b.pending = true →
      b ∈ stateAwareAux l filtered acc fS := by
  induction l with
  | nil => intro _ _ _ b hb; simp at hb
  | cons app rest ih =>
      intro filtered acc fS b hb hbst hbpd
      rcases List.mem_cons.mp hb with hb | hb
      · subst hb
        have hac : (b.state == "Accepted") = false := by simpa using hbst
        simp only [stateAwareAux, hbpd, if_true, hac, Bool.false_eq_true, if_false]
        obtain ⟨r, hr⟩ := stateAwareAux_extends rest (filtered ++ [b]) _ _
        rw [hr]
        simp
      · by_cases hpd : strictlyGreaterThanZero app.pending
        · by_cases hac : app.state == "Accepted"
          · simp only [stateAwareAux, hpd, hac, if_true]
            exact ih _ _ _ b hb hbst hbpd
          · simp only [stateAwareAux, hpd, if_true]
            rw [if_neg (by simpa using hac)]
            exact ih _ _ _ b hb hbst hbpd
        · simp only [stateAwareAux, hpd, if_false]
          exact ih _ _ _ b hb hbst hbpd

theorem stateAwareAux_at_most_one_accepted (l : List FilterApp) :
    ∀ (filtered : List FilterApp) (acc : Option FilterApp) (fS : Bool),
      (∀ x ∈ filtered, x.state ≠ "Accepted") →
      (stateAwareAux l filtered acc fS).countP (fun a => a.state == "Accepted") ≤ 1 := by
  induction l with
  | nil =>
      intro filtered acc fS hfil
      have hzero : filtered.countP (fun a => a.state == "Accepted") = 0 := by
        rw [List.countP_eq_zero]
        intro x hx
        simpa using hfil x hx
      cases acc with
      | none => simpa [stateAwareAux] using Nat.le_of_eq hzero |>.trans (by omega)
      | some a =>
          simp only [stateAwareAux, List.countP_append, hzero]
          have : List.countP (fun a => a.state == "Accepted") [a] ≤ 1 := by
            by_cases h : a.state == "Accepted" <;> simp [List.countP, List.countP.go, h]
          omega
  | cons app rest ih =>
      intro filtered acc fS hfil
      by_cases hpd : strictlyGreaterThanZero app.pending
      · by_cases hac : app.state == "Accepted"
        · simp only [stateAwareAux, hpd, hac, if_true]
          exact ih _ _ _ hfil
        · simp only [stateAwareAux, hpd, if_true]
          rw [if_neg (by simpa using hac)]
          refine ih _ _ _ ?_
          intro x hx
          rcases List.mem_append.mp hx with hx | hx
          · exact hfil x hx
          · have : x = app := by simpa using hx
            subst this
            simpa using hac
      · simp only [stateAwareAux, hpd, if_false]
        exact ih _ _ _ hfil

theorem stateAwareAux_blocked (l : List FilterApp) :
    ∀ (filtered : List FilterApp),
      (∀ x ∈ filtered, x.state ≠ "Accepted") →
      ∀ a ∈ stateAwareAux l filtered none true, a.state ≠ "Accepted" := by
  induction l with
  | nil =>
      intro filtered hfil a ha
      simp only [stateAwareAux] at ha
      exact hfil a ha
  | cons app rest ih =>
      intro filtered hfil a ha
      by_cases hpd : strictlyGreaterThanZero app.pending
      · by_cases hac : app.state == "Accepted"
        · simp only [stateAwareAux, hpd, hac, if_true] at ha
          have hred : (if app.state == "Starting" then (none : Option FilterApp)
              else none) = none := by
            by_cases h : app.state == "Starting" <;> simp [h]
          have hfs : (if app.state == "Starting" then true else true) = true := by
            by_cases h : app.state == "Starting" <;> simp [h]
          rw [hred, hfs] at ha
          have hcond : (!true && ((none : Option FilterApp).isNone ||
              (match (none : Option FilterApp) with
               | some acc => decide (app.submissionTime < acc.submissionTime)
               | none => false))) = false := by simp
          simp only [hcond, Bool.false_eq_true, if_false] at ha
          exact ih filtered hfil a ha
        · simp only [stateAwareAux, hpd, if_true] at ha
          rw [if_neg (by simpa using hac)] at ha
          have hred : (if app.state == "Starting" then (none : Option FilterApp)
              else none) = none := by
            by_cases h : app.state == "Starting" <;> simp [h]
          have hfs : (if app.state == "Starting" then true else true) = true := by
            by_cases h : app.state == "Starting" <;> simp [h]
          rw [hred, hfs] at ha
          refine ih (filtered ++ [app]) ?_ a ha
          intro x hx
          rcases List.mem_append.mp hx with hx | hx
          · exact hfil x hx
          · have : x = app := by simpa using hx
            subst this
            simpa using hac
      · simp only [stateAwareAux, hpd, if_false] at ha
        have hred : (if app.state == "Starting" then (none : Option FilterApp)
            else none) = none := by
          by_cases h : app.state == "Starting" <;> simp [h]
        have hfs : (if app.state == "Starting" then true else true) = true := by
          by_cases h : app.state == "Starting" <;> simp [h]
        rw [hred, hfs] at ha
        exact ih filtered hfil a ha

theorem stateAwareAux_starting_blocks (l : List FilterApp) :
    ∀ (filtered : List FilterApp) (acc : Option FilterApp) (fS : Bool),
      (∀ x ∈ filtered, x.state ≠ "Accepted") →
      (∃ s ∈ l, s.state = "Starting") →
      ∀ a ∈ stateAwareAux l filtered acc fS, a.state ≠ "Accepted" := by
  induction l with
  | nil => intro _ _ _ _ h; simp at h
  | cons app rest ih =>
      intro filtered acc fS hfil hst a ha
      by_cases happ : app.state == "Starting"
      · have happ' : (app.state == "Accepted") = false := by
          have : app.state = "Starting" := by simpa using happ
          simp [this]
        by_cases hpd : strictlyGreaterThanZero app.pending
        · simp only [stateAwareAux, hpd, if_true, happ', Bool.false_eq_true, if_false,
            happ] at ha
          refine stateAwareAux_blocked rest (filtered ++ [app]) ?_ a ha
          intro x hx
          rcases List.mem_append.mp hx with hx | hx
          · exact hfil x hx
          · have : x = app := by simpa using hx
            subst this
            simpa using happ'
        · simp only [stateAwareAux, hpd, if_false, happ, if_true] at ha
          exact stateAwareAux_blocked rest filtered hfil a ha
      · have hst' : ∃ s ∈ rest, s.state = "Starting" := by
          rcases hst with ⟨s, hs, hss⟩
          rcases List.mem_cons.mp hs with hs | hs
          · subst hs
            exact absurd hss (by simpa using happ)
          · exact ⟨s, hs, hss⟩
        by_cases hpd : strictlyGreaterThanZero app.pending
        · by_cases hac : app.state == "Accepted"
          · simp only [stateAwareAux, hpd, hac, if_true, happ, Bool.false_eq_true,
              if_false] at ha
            exact ih _ _ _ hfil hst' a ha
          · simp only [stateAwareAux, hpd, if_true, happ, Bool.false_eq_true,
              if_false] at ha
            rw [if_neg (by simpa using hac)] at ha
            refine ih _ _ _ ?_ hst' a ha
            intro x hx
            rcases List.mem_append.mp hx with hx | hx
            · exact hfil x hx
            · have : x = app := by simpa using hx
              subst this
              simpa using hac
        · simp only [stateAwareAux, hpd, if_false, happ, Bool.false_eq_true] at ha
          exact ih _ _ _ hfil hst' a ha

theorem stateAwareAux_accepted_min (l : List FilterApp) :
    ∀ (filtered : List FilterApp) (acc : Option FilterApp) (fS : Bool),
      (∀ x ∈ filtered, x.state ≠ "Accepted") →
      (∀ x, acc = some x → x.state = "Accepted" ∧
          strictlyGreaterThanZero x.pending = true) →
      (fS = true → acc = none) →
      ∀ a ∈ stateAwareAux l filtered acc fS, a.state = "Accepted" →
        (acc = some a ∨ a ∈ l) ∧
        strictlyGreaterThanZero a.pending = true ∧
        (∀ x, acc = some x → a.submissionTime ≤ x.submissionTime) ∧
        (∀ b ∈ l, b.state = "Accepted" → strictlyGreaterThanZero b.pending = true →
            a.submissionTime ≤ b.submissionTime) := by
  induction l with
  | nil =>
      intro filtered acc fS hfil hacc hfs a ha haAcc
      cases acc with
      | none =>
          simp only [stateAwareAux] at ha
          exact absurd haAcc (hfil a ha)
      | some a0 =>
          simp only [stateAwareAux] at ha
          rcases List.mem_append.mp ha with ha | ha
          · exact absurd haAcc (hfil a ha)
          · have haa : a = a0 := by simpa using ha
            subst haa
            refine ⟨Or.inl rfl, (hacc a rfl).2, ?_, ?_⟩
            · intro x hx
              have : x = a := by
                injection hx with h
                exact h.symm
              subst this
              exact le_refl _
            · intro b hb
              simp at hb
  | cons app rest ih =>
      intro filtered acc fS hfil hacc hfs a ha haAcc
      by_cases happ : app.state == "Starting"
      · have happ' : (app.state == "Accepted") = false := by
          have : app.state = "Starting" := by simpa using happ
          simp [this]
        by_cases hpd : strictlyGreaterThanZero app.pending
        · simp only [stateAwareAux, hpd, if_true, happ', Bool.false_eq_true, if_false,
            happ] at ha
          refine absurd haAcc (stateAwareAux_blocked rest (filtered ++ [app]) ?_ a ha)
          intro x hx
          rcases List.mem_append.mp hx with hx | hx
          · exact hfil x hx
          · have : x = app := by simpa using hx
            subst this
            simpa using happ'
        · simp only [stateAwareAux, hpd, if_false, happ, if_true] at ha
          exact absurd haAcc (stateAwareAux_blocked rest filtered hfil a ha)
      · have happF : (app.state == "Starting") = false := by
          simpa using happ
        by_cases hpd : strictlyGreaterThanZero app.pending
        · by_cases hac : app.state == "Accepted"
          · simp only [stateAwareAux, hpd, hac, if_true, happF, Bool.false_eq_true,
              if_false] at ha
            cases acc with
            | none =>
                cases fS with
                | true =>
                    simp only [Bool.not_true, Bool.false_and, Bool.false_eq_true,
                      if_false] at ha
                    exact absurd haAcc (stateAwareAux_blocked rest filtered hfil a ha)
                | false =>
                    simp only [Bool.not_false, Option.isNone_none, Bool.true_or,
                      Bool.true_and, if_true] at ha
                    have hIH := ih filtered (some app) false hfil
                      (by
                        intro x hx
                        injection hx with h
                        subst h
                        exact ⟨by simpa using hac, hpd⟩)
                      (by intro h; cases h)
                      a ha haAcc
                    rcases hIH with ⟨hmem, hpend, hle_acc, hle_list⟩
                    have hle_app : a.submissionTime ≤ app.submissionTime := hle_acc app rfl
                    refine ⟨?_, hpend, ?_, ?_⟩
                    · rcases hmem with hmem | hmem
                      · have : a = app := by
                          injection hmem with h
                          exact h.symm
                        exact Or.inr (this ▸ List.mem_cons_self app rest)
                      · exact Or.inr (List.mem_cons_of_mem app hmem)
                    · intro x hx
                      cases hx
                    · intro b hb hbAcc hbpd
                      rcases List.mem_cons.mp hb with hb | hb
                      · subst hb
                        exact hle_app
                      · exact hle_list b hb hbAcc hbpd
            | some x₀ =>
                cases fS with
                | true => exact absurd (hfs rfl) (by simp)
                | false =>
                    simp only [Bool.not_false, Option.isNone_some, Bool.false_or,
                      Bool.true_and] at ha
                    by_cases hlt : app.submissionTime < x₀.submissionTime
                    · rw [if_pos (by simpa using hlt)] at ha
                      have hIH := ih filtered (some app) false hfil
                        (by
                          intro x hx
                          injection hx with h
                          subst h
                          exact ⟨by simpa using hac, hpd⟩)
                        (by intro h; cases h)
                        a ha haAcc
                      rcases hIH with ⟨hmem, hpend, hle_acc, hle_list⟩
                      have hle_app : a.submissionTime ≤ app.submissionTime := hle_acc app rfl
                      refine ⟨?_, hpend, ?_, ?_⟩
                      · rcases hmem with hmem | hmem
                        · have : a = app := by
                            injection hmem with h
                            exact h.symm
                          exact Or.inr (this ▸ List.mem_cons_self app rest)
                        · exact Or.inr (List.mem_cons_of_mem app hmem)
                      · intro x hx
                        have hx0 : x = x₀ := by
                          injection hx with h
                          exact h.symm
                        subst hx0
                        omega
                      · intro b hb hbAcc hbpd
                        rcases List.mem_cons.mp hb with hb | hb
                        · subst hb
                          exact hle_app
                        · exact hle_list b hb hbAcc hbpd
                    · rw [if_neg (by simpa using hlt)] at ha
                      have hIH := ih filtered (some x₀) false hfil hacc
                        (by intro h; cases h)
                        a ha haAcc
                      rcases hIH with ⟨hmem, hpend, hle_acc, hle_list⟩
                      refine ⟨?_, hpend, ?_, ?_⟩
                      · rcases hmem with hmem | hmem
                        · exact Or.inl hmem
                        · exact Or.inr (List.mem_cons_of_mem app hmem)
                      · intro x hx
                        exact hle_acc x hx
                      · intro b hb hbAcc hbpd
                        rcases List.mem_cons.mp hb with hb | hb
                        · subst hb
                          have := hle_acc x₀ rfl
                          omega
                        · exact hle_list b hb hbAcc hbpd
          · simp only [stateAwareAux, hpd, if_true, happF, Bool.false_eq_true,
              if_false] at ha
            rw [if_neg (by simpa using hac)] at ha
            have hIH := ih (filtered ++ [app]) acc fS
              (by
                intro x hx
                rcases List.mem_append.mp hx with hx | hx
                · exact hfil x hx
                · have : x = app := by simpa using hx
                  subst this
                  simpa using hac)
              hacc hfs a ha haAcc
            rcases hIH with ⟨hmem, hpend, hle_acc, hle_list⟩
            refine ⟨?_, hpend, hle_acc, ?_⟩
            · rcases hmem with hmem | hmem
              · exact Or.inl hmem
              · exact Or.inr (List.mem_cons_of_mem app hmem)
            · intro b hb hbAcc hbpd
              rcases List.mem_cons.mp hb with hb | hb
              · subst hb
                exact absurd hbAcc (by simpa using hac)
              · exact hle_list b hb hbAcc hbpd
        · simp only [stateAwareAux, hpd, if_false, happF, Bool.false_eq_true] at ha
          have hIH := ih filtered acc fS hfil hacc hfs a ha haAcc
          rcases hIH with ⟨hmem, hpend, hle_acc, hle_list⟩
          refine ⟨?_, hpend, hle_acc, ?_⟩
          · rcases hmem with hmem | hmem
            · exact Or.inl hmem
            · exact Or.inr (List.mem_cons_of_mem app hmem)
          · intro b hb hbAcc hbpd
            rcases List.mem_cons.mp hb with hb | hb
            · subst hb
              exact absurd hbpd (by simpa using hpd)
            · exact hle_list b hb hbAcc hbpd

/-- C4 amended: the filter yields at most one Accepted candidate; it yields
no Accepted candidate when any application is Starting; an Accepted
candidate comes from the input, has pending resource and is an oldest such
Accepted application; and every non-Accepted application with pending
resource is yielded. -/
theorem stateAwareFilter_amended (apps : List FilterApp) :
    (StateAwareFilter apps).countP (fun a => a.state == "Accepted") ≤ 1 ∧
    ((∃ s ∈ apps, s.state = "Starting") →
        ∀ a ∈ StateAwareFilter apps, a.state ≠ "Accepted") ∧
    (∀ a ∈ StateAwareFilter apps, a.state = "Accepted" →
        a ∈ apps ∧ strictlyGreaterThanZero a.pending = true ∧
        (∀ b ∈ apps, b.state = "Accepted" → strictlyGreaterThanZero b.pending = true →
            a.submissionTime ≤ b.submissionTime)) ∧
    (∀ b ∈ apps, b.state ≠ "Accepted" → strictlyGreaterThanZero b.pending = true →
        b ∈ StateAwareFilter apps) := by
  refine ⟨?_, ?_, ?_, ?_⟩
  · exact stateAwareAux_at_most_one_accepted apps [] none false (by intro x hx; simp at hx)
  · intro hst a ha
    exact stateAwareAux_starting_blocks apps [] none false
      (by intro x hx; simp at hx) hst a ha
  · intro a ha haAcc
    have := stateAwareAux_accepted_min apps [] none false
      (by intro x hx; simp at hx)
      (by intro x hx; cases hx)
      (by intro h; rfl)
      a ha haAcc
    rcases this with ⟨hmem, hpend, _, hle⟩
    refine ⟨?_, hpend, hle⟩
    rcases hmem with hmem | hmem
    · cases hmem
    · exact hmem
  · intro b hb hbst hbpd
    exact stateAwareAux_complete apps [] none false b hb hbst hbpd

/-- An older and a newer Accepted application with pending resource. -/
def acceptedOld : FilterApp :=
  { appID := "app-b", state := "Accepted", pending := [("memory", 2)],
    submissionTime := 10 }

def acceptedNew : FilterApp :=
  { appID := "app-c", state := "Accepted", pending := [("memory", 2)],
    submissionTime := 20 }

/-- C4 witness: with a Starting app present, the filter yields no Accepted
candidate; without it, the older Accepted app is the one yielded. -/
theorem stateAwareFilter_amended_witness :
    ((∃ s ∈ [starterA, acceptedOld, acceptedNew], s.state = "Starting") ∧
      ∀ a ∈ StateAwareFilter [starterA, acceptedOld, acceptedNew],
        a.state ≠ "Accepted") ∧
    (∀ a ∈ StateAwareFilter [acceptedNew, acceptedOld], a.state = "Accepted" →
        a ∈ [acceptedNew, acceptedOld] ∧
        strictlyGreaterThanZero a.pending = true ∧
        (∀ b ∈ [acceptedNew, acceptedOld], b.state = "Accepted" →
            strictlyGreaterThanZero b.pending = true →
            a.submissionTime ≤ b.submissionTime)) ∧
    StateAwareFilter [acceptedNew, acceptedOld] = [acceptedOld] :=
  ⟨⟨by decide, (stateAwareFilter_amended [starterA, acceptedOld, acceptedNew]).2.1
      (by decide)⟩,
   (stateAwareFilter_amended [acceptedNew, acceptedOld]).2.2.1,
   by decide⟩

/-! ## Sortable linked map (`pkg/common/maps/sortable_linked_map.go`)

The doubly-linked list of entries is embedded as the list of entries in
linked order; the `firstMatchedEntry` pointer is embedded as the key of
that entry (keys are unique in the map).  `compareFunc i j` returns true
when `i` should be placed before `j`; `findPreEntry` scanning backward from
the tail corresponds to splitting the reversed list with
`takeWhile`/`dropWhile`; updating an existing key replaces the value in
place without reordering, exactly as in the source. -/

structure SortableLinkedMapEntry (K V : Type) where
  key : K
  value : V
  isMatched : Bool
  deriving DecidableEq

structure SortableLinkedMap (K V : Type) where
  entries : List (SortableLinkedMapEntry K V)
  firstMatchedEntry : Option K
  deriving DecidableEq

namespace SortableLinkedMap

variable {K V : Type} [DecidableEq K] [DecidableEq V]

def empty : SortableLinkedMap K V := ⟨[], none⟩

/-- Split the linked list at the (unique) entry with the given key. -/
def splitAtKey : List (SortableLinkedMapEntry K V) → K →
    Option (List (SortableLinkedMapEntry K V) × SortableLinkedMapEntry K V ×
      List (SortableLinkedMapEntry K V))
  | [], _ => none
  | e :: rest, k =>
      if e.key = k then some ([], e, rest)
      else
        match splitAtKey rest k with
        | none => none
        | some (p, x, s) => some (e :: p, x, s)

def slmLookup (l : List (SortableLinkedMapEntry K V)) (k : K) :
    Option (SortableLinkedMapEntry K V) :=
  findFirst (fun e => e.key == k) l

/-- `findNextMatchedEntry`: the first entry after the cursor whose
`isMatched` flag is set. -/
def findNextMatchedKey (post : List (SortableLinkedMapEntry K V)) : Option K :=
  (findFirst (fun e => e.isMatched) post).map (fun e => e.key)

/-- `updateMatchedState`: recompute the `isMatched` flag of the entry with
key `k` (already updated in the list) and adjust `firstMatchedEntry` as the
source does. -/
def updateMatchedState (cmp : V → V → Bool) (mf : V → Bool)
    (slm : SortableLinkedMap K V) (k : K) : SortableLinkedMap K V :=
  match splitAtKey slm.entries k with
  | none => slm
  | some (pre, e, post) =>
      let m := mf e.value
      let e' := { e with isMatched := m }
      let entries' := pre ++ e' :: post
      if m then
        match slm.firstMatchedEntry with
        | none => ⟨entries', some k⟩
        | some fk =>
            match slmLookup entries' fk with
            | some fe =>
                if cmp e.value fe.value then ⟨entries', some k⟩
                else ⟨entries', some fk⟩
            | none => ⟨entries', some fk⟩
      else
        if slm.firstMatchedEntry = some k then ⟨entries', findNextMatchedKey post⟩
        else ⟨entries', slm.firstMatchedEntry⟩

/-- `Put`: update the value in place when the key exists (no reordering);
otherwise insert at the position found by scanning backward from the tail
(`findPreEntry`), then update the matched state. -/
def Put (cmp : V → V → Bool) (mf : V → Bool) (slm : SortableLinkedMap K V)
    (k : K) (v : V) : SortableLinkedMap K V :=
  match splitAtKey slm.entries k with
  | some (pre, e, post) =>
      updateMatchedState cmp mf
        ⟨pre ++ { e with value := v } :: post, slm.firstMatchedEntry⟩ k
  | none =>
      let revl := slm.entries.reverse
      let sufRev := revl.takeWhile (fun e => cmp v e.value)
      let preRev := revl.dropWhile (fun e => cmp v e.value)
      let entries' := preRev.reverse ++ ⟨k, v, false⟩ :: sufRev.reverse
      updateMatchedState cmp mf ⟨entries', slm.firstMatchedEntry⟩ k

/-- `Remove`: unlink the entry; when it was the first matched entry the
cursor moves to the next matched entry after it. -/
def Remove (slm : SortableLinkedMap K V) (k : K) : SortableLinkedMap K V :=
  match splitAtKey slm.entries k with
  | none => slm
  | some (pre, _e, post) =>
      ⟨pre ++ post,
       if slm.firstMatchedEntry = some k then findNextMatchedKey post
       else slm.firstMatchedEntry⟩

/-- `GetFirstMatched`: the key/value of the tracked first matched entry,
none when the cursor is unset. -/
def GetFirstMatched (slm : SortableLinkedMap K V) : Option (K × V) :=
  match slm.firstMatchedEntry with
  | none => none
  | some k => (slmLookup slm.entries k).map (fun e => (e.key, e.value))

end SortableLinkedMap

/-- A map operation: Put or Remove. -/
inductive SLMOp (K V : Type) where
  | put (k : K) (v : V)
  | remove (k : K)
  deriving DecidableEq

namespace SortableLinkedMap

variable {K V : Type} [DecidableEq K] [DecidableEq V]

def runOps (cmp : V → V → Bool) (mf : V → Bool) :
    SortableLinkedMap K V → List (SLMOp K V) → SortableLinkedMap K V
  | slm, [] => slm
  | slm, SLMOp.put k v :: rest => runOps cmp mf (Put cmp mf slm k v) rest
  | slm, SLMOp.remove k :: rest => runOps cmp mf (Remove slm k) rest

/-- Every Put in the sequence inserts a key that is not currently present. -/
def freshRun (cmp : V → V → Bool) (mf : V → Bool) :
    SortableLinkedMap K V → List (SLMOp K V) → Bool
  | _, [] => true
  | slm, SLMOp.put k v :: rest =>
      (slmLookup slm.entries k).isNone && freshRun cmp mf (Put cmp mf slm k v) rest
  | slm, SLMOp.remove k :: rest => freshRun cmp mf (Remove slm k) rest

end SortableLinkedMap

/-- Ascending comparator and a "value at least 2" predicate on integers. -/
def cmpIntLt (a b : Int) : Bool := decide (a < b)

def matchIntGe2 (v : Int) : Bool := decide (2 ≤ v)

/-- The map after Put(0,1); Put(1,2); Put(0,5) — the last Put replaces the
value of key 0 in place. -/
def slmUpdateDemo : SortableLinkedMap Nat Int :=
  SortableLinkedMap.runOps cmpIntLt matchIntGe2 SortableLinkedMap.empty
    [SLMOp.put 0 1, SLMOp.put 1 2, SLMOp.put 0 5]

/-- C5 counterexample: after Put(0,1); Put(1,2); Put(0,5) the cursor stays
on the entry (1,2), but the first entry in linked-list order whose value
satisfies the predicate is (0,5): GetFirstMatched does not return the first
matching entry. -/
theorem slm_getFirstMatched_cursor_stale :
    SortableLinkedMap.GetFirstMatched slmUpdateDemo = some (1, 2) ∧
    (findFirst (fun e => matchIntGe2 e.value) slmUpdateDemo.entries).map
        (fun e => (e.key, e.value)) = some (0, 5) ∧
    SortableLinkedMap.GetFirstMatched slmUpdateDemo ≠
      (findFirst (fun e => matchIntGe2 e.value) slmUpdateDemo.entries).map
        (fun e => (e.key, e.value)) := by
  refine ⟨by decide, by decide, by decide⟩

namespace SortableLinkedMap

variable {K V : Type} [DecidableEq K] [DecidableEq V]

theorem splitAtKey_eq_none {l : List (SortableLinkedMapEntry K V)} {k : K} :
    splitAtKey l k = none ↔ ∀ e ∈ l, e.key ≠ k := by
  induction l with
  | nil => simp [splitAtKey]
  | cons e rest ih =>
      by_cases he : e.key = k
      · simp [splitAtKey, he]
      · simp only [splitAtKey, if_neg he]
        cases hs : splitAtKey rest k with
        | none =>
            simp only [List.mem_cons]
            constructor
            · intro _
              rintro x (rfl | hx)
              · exact he
              · exact (ih.mp hs) x hx
            · intro _
              trivial
        | some t =>
            rcases t with ⟨p, x, s⟩
            simp only [List.mem_cons]
            constructor
            · intro h
              cases h
            · intro h
              have : splitAtKey rest k = none := by
                rw [ih]
                intro y hy
                exact h y (Or.inr hy)
              rw [this] at hs
              cases hs

theorem splitAtKey_eq_some {l : List (SortableLinkedMapEntry K V)} {k : K}
    {p : List (SortableLinkedMapEntry K V)} {e : SortableLinkedMapEntry K V}
    {s : List (SortableLinkedMapEntry K V)} (h : splitAtKey l k = some (p, e, s)) :
    l = p ++ e :: s ∧ e.key = k ∧ ∀ x ∈ p, x.key ≠ k := by
  induction l generalizing p with
  | nil => simp [splitAtKey] at h
  | cons y rest ih =>
      by_cases hy : y.key = k
      · simp only [splitAtKey, if_pos hy] at h
        injection h with h
        injection h with h1 h2
        injection h2 with h2 h3
        subst h1
        subst h2
        subst h3
        exact ⟨rfl, hy, by simp⟩
      · simp only [splitAtKey, if_neg hy] at h
        cases hs : splitAtKey rest k with
        | none => rw [hs] at h; cases h
        | some t =>
            rcases t with ⟨p', x, s'⟩
            rw [hs] at h
            injection h with h
            injection h with h1 h2
            injection h2 with h2 h3
            subst h2
            subst h3
            rcases ih hs with ⟨hl, hk, hp⟩
            subst h1
            refine ⟨by rw [hl]; rfl, hk, ?_⟩
            intro z hz
            rcases List.mem_cons.mp hz with hz | hz
            · subst hz
              exact hy
            · exact hp z hz

theorem splitAtKey_append {k : K} {p : List (SortableLinkedMapEntry K V)}
    {e : SortableLinkedMapEntry K V} {s : List (SortableLinkedMapEntry K V)}
    (hp : ∀ x ∈ p, x.key ≠ k) (he : e.key = k) :
    splitAtKey (p ++ e :: s) k = some (p, e, s) := by
  induction p with
  | nil => simp [splitAtKey, he]
  | cons y ys ih =>
      have hy : y.key ≠ k := hp y (List.mem_cons_self y ys)
      simp only [List.cons_append, splitAtKey, if_neg hy]
      simp [ih (fun x hx => hp x (List.mem_cons_of_mem y hx))]

theorem slmLookup_of_mem {l : List (SortableLinkedMapEntry K V)}
    (hnd : (l.map (fun e => e.key)).Nodup) {e : SortableLinkedMapEntry K V} {k : K}
    (he : e ∈ l) (hk : e.key = k) : slmLookup l k = some e := by
  induction l with
  | nil => simp at he
  | cons y rest ih =>
      rcases List.mem_cons.mp he with he | he
      · subst he
        simp [slmLookup, findFirst, hk]
      · have hnd' : y.key ∉ rest.map (fun e => e.key) ∧
            (rest.map (fun e => e.key)).Nodup := by
          rw [List.map_cons, List.nodup_cons] at hnd
          exact hnd
        have hyk : y.key ≠ k := by
          intro h
          apply hnd'.1
          have hm : e.key ∈ rest.map (fun e => e.key) := List.mem_map_of_mem _ he
          rw [hk] at hm
          rw [h]
          exact hm
        have hrec : slmLookup rest k = some e := ih hnd'.2 he
        simpa [slmLookup, findFirst, hyk] using hrec

theorem slmLookup_eq_none {l : List (SortableLinkedMapEntry K V)} {k : K} :
    slmLookup l k = none ↔ ∀ e ∈ l, e.key ≠ k := by
  unfold slmLookup
  rw [findFirst_eq_none]
  constructor
  · intro h e he
    simpa using h e he
  · intro h e he
    simpa using h e he

/-- The invariant tied to a comparator and a predicate: unique keys, the
linked order is pairwise sorted, flags agree with the predicate, and the
cursor is the key of the first flag-consistent match. -/
def Inv (cmp : V → V → Bool) (mf : V → Bool) (slm : SortableLinkedMap K V) : Prop :=
  (slm.entries.map (fun e => e.key)).Nodup ∧
  slm.entries.Pairwise (fun a b => cmp b.value a.value = false) ∧
  (∀ e ∈ slm.entries, e.isMatched = mf e.value) ∧
  slm.firstMatchedEntry =
    (findFirst (fun e => mf e.value) slm.entries).map (fun e => e.key)

theorem Inv_empty (cmp : V → V → Bool) (mf : V → Bool) :
    Inv cmp mf (empty : SortableLinkedMap K V) := by
  exact ⟨by simp [empty], by simp [empty], by simp [empty], rfl⟩

theorem getFirstMatched_of_inv {cmp : V → V → Bool} {mf : V → Bool}
    {slm : SortableLinkedMap K V} (h : Inv cmp mf slm) :
    GetFirstMatched slm =
      (findFirst (fun e => mf e.value) slm.entries).map (fun e => (e.key, e.value)) := by
  rcases h with ⟨hnd, _, _, hfme⟩
  unfold GetFirstMatched
  rw [hfme]
  cases hf : findFirst (fun e => mf e.value) slm.entries with
  | none => simp
  | some f =>
      have hmem := (findFirst_eq_some hf).1
      show (slmLookup slm.entries f.key).map (fun e => (e.key, e.value)) =
        some (f.key, f.value)
      rw [slmLookup_of_mem hnd hmem rfl]
      rfl

end SortableLinkedMap

theorem findFirst_congr {p q : α → Bool} {l : List α} (h : ∀ x ∈ l, p x = q x) :
    findFirst p l = findFirst q l := by
  induction l with
  | nil => rfl
  | cons x xs ih =>
      have hx := h x (List.mem_cons_self x xs)
      by_cases hp : p x
      · simp [findFirst, hp, ← hx]
      · have hq : q x = false := by rw [← hx]; simpa using hp
        simp [findFirst, hp, hq]
        exact ih (fun y hy => h y (List.mem_cons_of_mem x hy))

theorem pairwise_rel_getLast {R : α → α → Prop} :
    ∀ {l : List α}, l.Pairwise R → ∀ e ∈ l, ∀ y, l.getLast? = some y → R e y ∨ e = y := by
  intro l
  induction l with
  | nil => intro _ e he; simp at he
  | cons x xs ih =>
      intro hpw e he y hy
      rcases List.pairwise_cons.mp hpw with ⟨hx, hxs⟩
      cases xs with
      | nil =>
          have hex : e = x := by simpa using he
          have hxy : x = y := by simpa [List.getLast?] using hy
          subst hex
          exact Or.inr hxy
      | cons z zs =>
          have hy' : (z :: zs).getLast? = some y := by
            rw [List.getLast?_cons_cons] at hy
            exact hy
          rcases List.mem_cons.mp he with he | he
          · subst he
            exact Or.inl (hx y (List.mem_of_getLast?_eq_some hy'))
          · exact ih hxs e he y hy'

namespace SortableLinkedMap

variable {K V : Type} [DecidableEq K] [DecidableEq V]

theorem Inv_Remove {cmp : V → V → Bool} {mf : V → Bool}
    {slm : SortableLinkedMap K V} (h : Inv cmp mf slm) (k : K) :
    Inv cmp mf (Remove slm k) := by
  cases hsp : splitAtKey slm.entries k with
  | none =>
      unfold Remove
      rw [hsp]
      exact h
  | some t =>
      rcases t with ⟨pre, e, post⟩
      obtain ⟨hl, hek, hpre⟩ := splitAtKey_eq_some hsp
      rcases h with ⟨hnd, hpw, hfl, hfme⟩
      rw [hl] at hnd hpw hfl hfme
      have hrem : Remove slm k =
          ⟨pre ++ post,
           if slm.firstMatchedEntry = some k then findNextMatchedKey post
           else slm.firstMatchedEntry⟩ := by
        unfold Remove
        rw [hsp]
      have hsub : List.Sublist (pre ++ post) (pre ++ e :: post) :=
        (List.sublist_cons_self e post).append_left pre
      have hndkey : ((pre ++ post).map (fun e => e.key)).Nodup :=
        ((hsub.map (fun e => e.key)).nodup hnd)
      have hekpost : e.key ∉ post.map (fun x => x.key) := by
        have := (List.nodup_middle.mp (by simpa using hnd))
        rcases List.nodup_cons.mp this with ⟨hmem, _⟩
        intro hc
        exact hmem (List.mem_append.mpr (Or.inr hc))
      rw [hrem]
      refine ⟨hndkey, hpw.sublist hsub, ?_, ?_⟩
      · intro x hx
        exact hfl x (hsub.mem hx)
      · by_cases hk : slm.firstMatchedEntry = some k
        · rw [if_pos hk]
          rw [hfme] at hk
          cases hfp : findFirst (fun e => mf e.value) pre with
          | some g =>
              rw [findFirst_append, hfp] at hk
              have hg : g ∈ pre := (findFirst_eq_some hfp).1
              have hgk : g.key = k := by
                simpa using hk
              exact absurd hgk (hpre g hg)
          | none =>
              rw [findFirst_append, hfp] at hk
              simp only [Option.none_or] at hk
              by_cases hpe : mf e.value
              · simp only
                rw [findFirst_append, hfp, Option.none_or]
                unfold findNextMatchedKey
                rw [findFirst_congr (fun x hx => hfl x
                  (List.mem_append.mpr (Or.inr (List.mem_cons_of_mem e hx))))]
              · simp only [findFirst, hpe, Bool.false_eq_true, if_false] at hk
                cases hfpost : findFirst (fun e => mf e.value) post with
                | none => rw [hfpost] at hk; cases hk
                | some f =>
                    rw [hfpost] at hk
                    have hf : f ∈ post := (findFirst_eq_some hfpost).1
                    have hfk : f.key = k := by simpa using hk
                    exact absurd (by
                      rw [hek, ← hfk]
                      exact List.mem_map_of_mem (fun x => x.key) hf) hekpost
        · rw [if_neg hk]
          rw [hfme] at hk ⊢
          have hg1 : findFirst (fun e => mf e.value) (pre ++ e :: post) =
              (findFirst (fun e => mf e.value) pre).or
                (findFirst (fun e => mf e.value) (e :: post)) :=
            findFirst_append _ _ _
          have hg2 : findFirst (fun e => mf e.value) (pre ++ post) =
              (findFirst (fun e => mf e.value) pre).or
                (findFirst (fun e => mf e.value) post) :=
            findFirst_append _ _ _
          rw [hg1] at hk
          rw [hg1, hg2]
          cases hfp : findFirst (fun e => mf e.value) pre with
          | some g => rfl
          | none =>
              rw [hfp] at hk
              simp only [Option.none_or]
              by_cases hpe : mf e.value
              · exfalso
                apply hk
                simp [findFirst, hpe, hek]
              · simp only [findFirst, hpe, Bool.false_eq_true, if_false]

end SortableLinkedMap

namespace SortableLinkedMap

variable {K V : Type} [DecidableEq K] [DecidableEq V]

theorem updateMatchedState_eq {cmp : V → V → Bool} {mf : V → Bool}
    {slm : SortableLinkedMap K V} {k : K}
    {pre : List (SortableLinkedMapEntry K V)} {e : SortableLinkedMapEntry K V}
    {post : List (SortableLinkedMapEntry K V)}
    (hsp : splitAtKey slm.entries k = some (pre, e, post)) :
    updateMatchedState cmp mf slm k =
      (if mf e.value then
        match slm.firstMatchedEntry with
        | none => ⟨pre ++ { e with isMatched := mf e.value } :: post, some k⟩
        | some fk =>
            match slmLookup (pre ++ { e with isMatched := mf e.value } :: post) fk with
            | some fe =>
                if cmp e.value fe.value then
                  ⟨pre ++ { e with isMatched := mf e.value } :: post, some k⟩
                else ⟨pre ++ { e with isMatched := mf e.value } :: post, some fk⟩
            | none => ⟨pre ++ { e with isMatched := mf e.value } :: post, some fk⟩
      else
        if slm.firstMatchedEntry = some k then
          ⟨pre ++ { e with isMatched := mf e.value } :: post, findNextMatchedKey post⟩
        else ⟨pre ++ { e with isMatched := mf e.value } :: post,
          slm.firstMatchedEntry⟩) := by
  unfold updateMatchedState
  rw [hsp]

theorem Inv_Put_fresh {cmp : V → V → Bool} {mf : V → Bool}
    (hasymm : ∀ a b, cmp a b = true → cmp b a = false)
    (hnt : ∀ a b c, cmp a b = false → cmp b c = false → cmp a c = false)
    {slm : SortableLinkedMap K V} (h : Inv cmp mf slm) {k : K}
    (hfresh : slmLookup slm.entries k = none) (v : V) :
    Inv cmp mf (Put cmp mf slm k v) := by
  have hnotin : ∀ e ∈ slm.entries, e.key ≠ k := slmLookup_eq_none.mp hfresh
  have hsp : splitAtKey slm.entries k = none := splitAtKey_eq_none.mpr hnotin
  rcases h with ⟨hnd, hpw, hfl, hfme⟩
  set A : List (SortableLinkedMapEntry K V) :=
    (slm.entries.reverse.dropWhile (fun e => cmp v e.value)).reverse with hA
  set B : List (SortableLinkedMapEntry K V) :=
    (slm.entries.reverse.takeWhile (fun e => cmp v e.value)).reverse with hB
  have hentries : slm.entries = A ++ B := by
    rw [hA, hB, ← List.reverse_append, List.takeWhile_append_dropWhile,
      List.reverse_reverse]
  have hput : Put cmp mf slm k v =
      updateMatchedState cmp mf ⟨A ++ ⟨k, v, false⟩ :: B, slm.firstMatchedEntry⟩ k := by
    unfold Put
    rw [hsp]
  have hBv : ∀ e ∈ B, cmp v e.value = true := by
    intro e he
    rw [hB, List.mem_reverse] at he
    exact List.mem_takeWhile_imp (p := fun e => cmp v e.value)
      (l := slm.entries.reverse) he
  have hAkeys : ∀ x ∈ A, x.key ≠ k := fun x hx =>
    hnotin x (hentries ▸ List.mem_append.mpr (Or.inl hx))
  have hBkeys : ∀ x ∈ B, x.key ≠ k := fun x hx =>
    hnotin x (hentries ▸ List.mem_append.mpr (Or.inr hx))
  have hpwAB : (A ++ B).Pairwise (fun a b => cmp b.value a.value = false) := by
    rw [← hentries]
    exact hpw
  have hApw := (List.pairwise_append.mp hpwAB).1
  have hBpw := (List.pairwise_append.mp hpwAB).2.1
  have hcross := (List.pairwise_append.mp hpwAB).2.2
  have hAv : ∀ e ∈ A, cmp v e.value = false := by
    intro e he
    cases hAl : A.getLast? with
    | none =>
        rw [List.getLast?_eq_none_iff] at hAl
        rw [hAl] at he
        simp at he
    | some y =>
        have hy : cmp v y.value = false := by
          have hhd : (slm.entries.reverse.dropWhile (fun e => cmp v e.value)).head? =
              some y := by
            rw [← List.getLast?_reverse]
            rw [← hA]
            exact hAl
          have hmatch := List.head?_dropWhile_not (fun e => cmp v e.value)
            slm.entries.reverse
          rw [hhd] at hmatch
          exact hmatch
        rcases pairwise_rel_getLast hApw e he y hAl with hR | hey
        · exact hnt v y.value e.value hy hR
        · rw [hey]
          exact hy
  have hndAB : ((A ++ B).map (fun e => e.key)).Nodup := by
    rw [← hentries]
    exact hnd
  have hkAB : k ∉ (A ++ B).map (fun e => e.key) := by
    intro hc
    rcases List.mem_map.mp hc with ⟨x, hx, hxk⟩
    rcases List.mem_append.mp hx with hx | hx
    · exact hAkeys x hx hxk
    · exact hBkeys x hx hxk
  have hsp2 : splitAtKey
      ((⟨A ++ ⟨k, v, false⟩ :: B, slm.firstMatchedEntry⟩ :
        SortableLinkedMap K V)).entries k = some (A, ⟨k, v, false⟩, B) :=
    splitAtKey_append hAkeys rfl
  have hflAB : ∀ x ∈ A ++ B, x.isMatched = mf x.value := by
    intro x hx
    exact hfl x (hentries ▸ hx)
  have hnd2 : ((A ++ (⟨k, v, mf v⟩ : SortableLinkedMapEntry K V) :: B).map
      (fun e => e.key)).Nodup := by
    have : (A ++ (⟨k, v, mf v⟩ : SortableLinkedMapEntry K V) :: B).map
        (fun e => e.key) = A.map (fun e => e.key) ++ k :: B.map (fun e => e.key) := by
      simp
    rw [this]
    rw [List.nodup_middle]
    rw [List.nodup_cons]
    constructor
    · intro hc
      apply hkAB
      rw [List.map_append]
      exact hc
    · rw [← List.map_append]
      exact hndAB
  have hpw2 : (A ++ (⟨k, v, mf v⟩ : SortableLinkedMapEntry K V) :: B).Pairwise
      (fun a b => cmp b.value a.value = false) := by
    rw [List.pairwise_append]
    refine ⟨hApw, ?_, ?_⟩
    · rw [List.pairwise_cons]
      exact ⟨fun b hb => hasymm v b.value (hBv b hb), hBpw⟩
    · intro a ha x hx
      rcases List.mem_cons.mp hx with hx | hx
      · rw [hx]
        exact hAv a ha
      · exact hcross a ha x hx
  have hfl2 : ∀ x ∈ A ++ (⟨k, v, mf v⟩ : SortableLinkedMapEntry K V) :: B,
      x.isMatched = mf x.value := by
    intro x hx
    rcases List.mem_append.mp hx with hx | hx
    · exact hflAB x (List.mem_append.mpr (Or.inl hx))
    · rcases List.mem_cons.mp hx with hx | hx
      · rw [hx]
      · exact hflAB x (List.mem_append.mpr (Or.inr hx))
  rw [hput, updateMatchedState_eq hsp2]
  by_cases hm : mf v
  · rw [if_pos (by simpa using hm)]
    cases hrop : findFirst (fun e => mf e.value) (A ++ B) with
    | none =>
        have hfmeN : slm.firstMatchedEntry = none := by
          rw [hfme, hentries, hrop]
          rfl
        rw [hfmeN]
        refine ⟨by simpa using hnd2, by simpa using hpw2, by simpa using hfl2, ?_⟩
        have hfa : findFirst (fun e => mf e.value) A = none := by
          rw [findFirst_append] at hrop
          cases hfa : findFirst (fun e => mf e.value) A with
          | none => rfl
          | some g => rw [hfa] at hrop; cases hrop
        simp only
        rw [findFirst_append, hfa, Option.none_or]
        simp [findFirst, hm]
    | some f =>
        have hfmeF : slm.firstMatchedEntry = some f.key := by
          rw [hfme, hentries, hrop]
          rfl
        have hfmem : f ∈ A ++ B := (findFirst_eq_some hrop).1
        have hfp : mf f.value = true := (findFirst_eq_some hrop).2
        have hfkne : f.key ≠ k := by
          rcases List.mem_append.mp hfmem with hx | hx
          · exact hAkeys f hx
          · exact hBkeys f hx
        have hfmem2 : f ∈ A ++ (⟨k, v, mf v⟩ : SortableLinkedMapEntry K V) :: B := by
          rcases List.mem_append.mp hfmem with hx | hx
          · exact List.mem_append.mpr (Or.inl hx)
          · exact List.mem_append.mpr (Or.inr (List.mem_cons_of_mem _ hx))
        have hlook : slmLookup
            (A ++ (⟨k, v, mf v⟩ : SortableLinkedMapEntry K V) :: B) f.key = some f :=
          slmLookup_of_mem hnd2 hfmem2 rfl
        rw [hfmeF]
        simp only [hlook]
        by_cases hcv : cmp v f.value
        · rw [if_pos (show cmp v f.value = true from by simpa using hcv)]
          refine ⟨by simpa using hnd2, by simpa using hpw2, by simpa using hfl2, ?_⟩
          have hfa : findFirst (fun e => mf e.value) A = none := by
            cases hfa : findFirst (fun e => mf e.value) A with
            | none => rfl
            | some g =>
                have hg : g ∈ A := (findFirst_eq_some hfa).1
                rw [findFirst_append, hfa] at hrop
                have : g = f := Option.some.inj hrop
                rw [this] at hg
                rw [hAv f hg] at hcv
                cases hcv
          simp only
          rw [findFirst_append, hfa, Option.none_or]
          simp [findFirst, hm]
        · rw [if_neg (show ¬ cmp v f.value = true from by simpa using hcv)]
          refine ⟨by simpa using hnd2, by simpa using hpw2, by simpa using hfl2, ?_⟩
          cases hfa : findFirst (fun e => mf e.value) A with
          | none =>
              rw [findFirst_append, hfa, Option.none_or] at hrop
              have hfB : f ∈ B := (findFirst_eq_some hrop).1
              rw [hBv f hfB] at hcv
              cases hcv rfl
          | some g =>
              rw [findFirst_append, hfa] at hrop
              have hgf : g = f := Option.some.inj hrop
              simp only
              rw [findFirst_append, hfa]
              rw [hgf]
              rfl
  · have hmf : mf v = false := by simpa using hm
    rw [if_neg (by simp [hmf])]
    have hne : slm.firstMatchedEntry ≠ some k := by
      rw [hfme]
      intro hc
      cases hff : findFirst (fun e => mf e.value) slm.entries with
      | none => rw [hff] at hc; cases hc
      | some f =>
          rw [hff] at hc
          have hf : f ∈ slm.entries := (findFirst_eq_some hff).1
          have : f.key = k := Option.some.inj hc
          exact hnotin f hf this
    rw [if_neg hne]
    refine ⟨by simpa using hnd2, by simpa using hpw2, by simpa using hfl2, ?_⟩
    simp only
    rw [hfme, hentries]
    rw [findFirst_append, findFirst_append]
    have : findFirst (fun e => mf e.value)
        ((⟨k, v, mf v⟩ : SortableLinkedMapEntry K V) :: B) =
          findFirst (fun e => mf e.value) B := by
      simp [findFirst, hmf]
    rw [this]

end SortableLinkedMap

namespace SortableLinkedMap

variable {K V : Type} [DecidableEq K] [DecidableEq V]

theorem Inv_runOps {cmp : V → V → Bool} {mf : V → Bool}
    (hasymm : ∀ a b, cmp a b = true → cmp b a = false)
    (hnt : ∀ a b c, cmp a b = false → cmp b c = false → cmp a c = false) :
    ∀ (ops : List (SLMOp K V)) (slm : SortableLinkedMap K V),
      Inv cmp mf slm → freshRun cmp mf slm ops = true →
      Inv cmp mf (runOps cmp mf slm ops) := by
  intro ops
  induction ops with
  | nil => intro slm h _; exact h
  | cons op rest ih =>
      intro slm h hfr
      cases op with
      | put k v =>
          simp only [freshRun, Bool.and_eq_true] at hfr
          rcases hfr with ⟨hfresh, hrest⟩
          have hfresh' : slmLookup slm.entries k = none := by
            cases hl : slmLookup slm.entries k with
            | none => rfl
            | some e => rw [hl] at hfresh; cases hfresh
          exact ih (Put cmp mf slm k v)
            (Inv_Put_fresh hasymm hnt h hfresh' v) hrest
      | remove k =>
          simp only [freshRun] at hfr
          exact ih (Remove slm k) (Inv_Remove h k) hfr

end SortableLinkedMap

/-- C5 amended: for a comparator that is asymmetric and negatively
transitive (a strict-weak-order comparator, as sorting requires), after any
sequence of Put and Remove operations starting from the empty map in which
every Put inserts a key not currently present, GetFirstMatched returns the
first entry in linked-list order whose value satisfies the match predicate,
or none when no entry matches.  (A Put that replaces the value of an
existing key is excluded: it updates in place without reordering and can
leave the cursor on a later entry, see the counterexample.) -/
theorem sortableLinkedMap_getFirstMatched_fresh
    {K V : Type} [DecidableEq K] [DecidableEq V]
    (cmp : V → V → Bool) (mf : V → Bool)
    (hasymm : ∀ a b, cmp a b = true → cmp b a = false)
    (hnt : ∀ a b c, cmp a b = false → cmp b c = false → cmp a c = false)
    (ops : List (SLMOp K V))
    (hfresh : SortableLinkedMap.freshRun cmp mf SortableLinkedMap.empty ops = true) :
    SortableLinkedMap.GetFirstMatched
        (SortableLinkedMap.runOps cmp mf SortableLinkedMap.empty ops) =
      (findFirst (fun e => mf e.value)
          (SortableLinkedMap.runOps cmp mf SortableLinkedMap.empty ops).entries).map
        (fun e => (e.key, e.value)) :=
  SortableLinkedMap.getFirstMatched_of_inv
    (SortableLinkedMap.Inv_runOps hasymm hnt ops SortableLinkedMap.empty
      (SortableLinkedMap.Inv_empty cmp mf) hfresh)

/-- Ascending comparator on `Fin 4` and a "value at least 2" predicate. -/
def cmpFin (a b : Fin 4) : Bool := decide (a < b)

def mfFin (x : Fin 4) : Bool := decide (2 ≤ x.val)

def slmWitnessOps : List (SLMOp Nat (Fin 4)) :=
  [SLMOp.put 0 1, SLMOp.put 1 3, SLMOp.put 2 2, SLMOp.remove 1]

/-- C5 witness: the amended theorem at a concrete strict-weak-order
comparator and a concrete fresh-key operation sequence. -/
theorem sortableLinkedMap_getFirstMatched_fresh_witness :
    (∀ a b : Fin 4, cmpFin a b = true → cmpFin b a = false) ∧
    (∀ a b c : Fin 4, cmpFin a b = false → cmpFin b c = false → cmpFin a c = false) ∧
    SortableLinkedMap.freshRun cmpFin mfFin SortableLinkedMap.empty slmWitnessOps = true ∧
    SortableLinkedMap.GetFirstMatched
        (SortableLinkedMap.runOps cmpFin mfFin SortableLinkedMap.empty slmWitnessOps) =
      (findFirst (fun e => mfFin e.value)
          (SortableLinkedMap.runOps cmpFin mfFin SortableLinkedMap.empty
            slmWitnessOps).entries).map (fun e => (e.key, e.value)) :=
  ⟨by decide, by decide, by decide,
   sortableLinkedMap_getFirstMatched_fresh cmpFin mfFin (by decide) (by decide)
     slmWitnessOps (by decide)⟩
